import Mathlib

/-!
Verification development for the cider-cli IPv4 aggregation pipeline.

The repository's processing modules (`ipmap/processing/normalize.py`,
`ipmap/processing/bucket.py`, `ipmap/processing/stats.py`) are referenced by
`src/ipmap/cli.py` but their sources are not in the tree; the corresponding
definitions below are modelled from the specification and are marked as such.
The consistency-coordination logic and the export helpers are translated from
`src/ipmap/cli.py` and `src/ipmap/viz/export.py` directly.
-/

namespace CiderCli

/-- Split a character list on a separator character, mirroring Python
`str.split(sep)`: the result always has at least one (possibly empty) part,
and the separator occurrences delimit consecutive parts. -/
def splitOnChar (sep : Char) : List Char → List (List Char)
  | [] => [[]]
  | c :: cs =>
    if c = sep then [] :: splitOnChar sep cs
    else (c :: (splitOnChar sep cs).headD []) :: (splitOnChar sep cs).tail

/-- Numeric value of a decimal digit character. -/
def digitVal (c : Char) : Nat := c.toNat - ('0').toNat

/-- Modelled from the spec: decimal-integer parsing used by the Normalizer
(`ipmap/processing/normalize.py` is not in src).  A nonempty all-digit string
parses to its decimal value; anything else fails. -/
def parseNatDigits (s : List Char) : Option Nat :=
  if s ≠ [] ∧ s.all Char.isDigit then
    some (s.foldl (fun a c => a * 10 + digitVal c) 0)
  else none

/-- Modelled from the spec (§4.1): one dotted-quad octet must be a decimal
integer in [0,255]. -/
def parseOctet (s : List Char) : Option Nat :=
  match parseNatDigits s with
  | some n => if n ≤ 255 then some n else none
  | none => none

/-- Modelled from the spec (§4.1): an address must decompose into exactly four
decimal octets each in [0,255]; the numeric address packs them big-endian. -/
def parseQuad (s : List Char) : Option Nat :=
  match splitOnChar '.' s with
  | [p1, p2, p3, p4] =>
    (parseOctet p1).bind fun a =>
      (parseOctet p2).bind fun b =>
        (parseOctet p3).bind fun c =>
          (parseOctet p4).map fun d =>
            a * 2 ^ 24 + b * 2 ^ 16 + c * 2 ^ 8 + d
  | _ => none

/-- Modelled from the spec (§4.1): parse the raw `ip` field; if it contains
`/`, split into address and prefix length, the latter being a decimal integer
in [0,32]. -/
def parseIpField (s : List Char) : Option (Nat × Option Nat) :=
  match splitOnChar '/' s with
  | [a] => (parseQuad a).map fun n => (n, none)
  | [a, p] =>
    (parseQuad a).bind fun n =>
      (parseNatDigits p).bind fun pl =>
        if pl ≤ 32 then some (n, some pl) else none
  | _ => none

/-- The address part of a raw `ip` field: the portion before an optional `/`
suffix (the whole string when no `/` is present). -/
def addrPart (s : List Char) : List Char := (splitOnChar '/' s).headD s

/-- A raw input record, as in `src/ipmap/models.py` (`IpRecord`): loosely
typed fields prior to normalization. -/
structure RawRecord where
  ip : List Char
  prefixLen : Option Int
  org : Option (List Char)
  source : List Char
  snapshotDate : Option (List Char)
  deriving DecidableEq

/-- A canonical record per spec §3: numeric 32-bit address, optional prefix
length in [0,32], optional category, source tag and optional date label. -/
structure CanonicalRecord where
  address : Nat
  prefixLen : Option Nat
  category : Option (List Char)
  source : List Char
  snapshotDate : Option (List Char)
  deriving DecidableEq

/-- Modelled from the spec (§4.1, `ipmap/processing/normalize.py` is not in
src): validate and canonicalize one raw record; a `/`-suffix prefix length
takes priority over the separately supplied field, which must lie in [0,32]
when used. -/
def normalizeRecord (r : RawRecord) : Option CanonicalRecord :=
  match parseIpField r.ip with
  | none => none
  | some (addr, some pl) =>
    some { address := addr, prefixLen := some pl, category := r.org,
           source := r.source, snapshotDate := r.snapshotDate }
  | some (addr, none) =>
    match r.prefixLen with
    | none =>
      some { address := addr, prefixLen := none, category := r.org,
             source := r.source, snapshotDate := r.snapshotDate }
    | some pl =>
      if 0 ≤ pl ∧ pl ≤ 32 then
        some { address := addr, prefixLen := some pl.toNat, category := r.org,
               source := r.source, snapshotDate := r.snapshotDate }
      else none

/-- Modelled from the spec (§4.1): normalize a raw record sequence, keeping
accepted canonical records in order and counting rejected rows. -/
def normalize (rs : List RawRecord) : List CanonicalRecord × Nat :=
  match rs with
  | [] => ([], 0)
  | r :: rest =>
    match normalizeRecord r, normalize rest with
    | some c, (acc, rej) => (c :: acc, rej)
    | none, (acc, rej) => (acc, rej + 1)

/-- Modelled from the spec (§3, `ipmap/processing/bucket.py` is not in src):
first octet, `address >> 24 & 0xFF`. -/
def oct1 (a : Nat) : Nat := a / 2 ^ 24 % 256

/-- Modelled from the spec (§3): second octet, `address >> 16 & 0xFF`. -/
def oct2 (a : Nat) : Nat := a / 2 ^ 16 % 256

/-- Modelled from the spec (§3): third octet, `address >> 8 & 0xFF`. -/
def oct3 (a : Nat) : Nat := a / 2 ^ 8 % 256

/-- Modelled from the spec (§3): fourth octet, `address & 0xFF`. -/
def oct4 (a : Nat) : Nat := a % 256

/-- Modelled from the spec (§3): `/16` bucket coordinates `(x, y)`. -/
def bucket16Coords (a : Nat) : Nat × Nat := (oct1 a, oct2 a)

/-- Modelled from the spec (§3): `/24` bucket coordinates `(x, y, z)`. -/
def bucket24Coords (a : Nat) : Nat × Nat × Nat := (oct1 a, oct2 a, oct3 a)

/-- Modelled from the spec (§3, §4.2): the parent `/16` coordinates emitted on
each `/24` bucketing row. -/
def bucket24ParentCoords (a : Nat) : Nat × Nat := (oct1 a, oct2 a)

/-- Modelled from the spec (§3): `/32` bucket coordinates, the full 4-octet
address. -/
def bucket32Coords (a : Nat) : Nat × Nat × Nat × Nat :=
  (oct1 a, oct2 a, oct3 a, oct4 a)

/-- The numeric address of a dotted quad `a.b.c.d`. -/
def quadAddr (a b c d : Nat) : Nat := a * 2 ^ 24 + b * 2 ^ 16 + c * 2 ^ 8 + d

/-- The extra grouping key used by `src/ipmap/cli.py`
(`extra_group_cols=["source", "snapshot_date"]`). -/
abbrev GroupKey := List Char × Option (List Char)

/-- Extra grouping values of a canonical record. -/
def groupOf (c : CanonicalRecord) : GroupKey := (c.source, c.snapshotDate)

/-- Modelled from the spec (§4.3): full `/16` partition key — bucket
coordinates plus extra grouping values. -/
def key16 (c : CanonicalRecord) : (Nat × Nat) × GroupKey :=
  (bucket16Coords c.address, groupOf c)

/-- Modelled from the spec (§4.3): full `/24` partition key. -/
def key24 (c : CanonicalRecord) : (Nat × Nat × Nat) × GroupKey :=
  (bucket24Coords c.address, groupOf c)

/-- Modelled from the spec (§4.3): full `/32` partition key. -/
def key32 (c : CanonicalRecord) : (Nat × Nat × Nat × Nat) × GroupKey :=
  (bucket32Coords c.address, groupOf c)

/-- Modelled from the spec (§4.3, `ipmap/processing/bucket.py` is not in src):
the distinct partition keys for which the Aggregator emits a row. -/
def keysOf {κ : Type} [DecidableEq κ] (key : CanonicalRecord → κ)
    (l : List CanonicalRecord) : List κ :=
  (l.map key).dedup

/-- Modelled from the spec (§4.3): the records belonging to one partition. -/
def partitionOf {κ : Type} [DecidableEq κ] (key : CanonicalRecord → κ)
    (l : List CanonicalRecord) (k : κ) : List CanonicalRecord :=
  l.filter fun r => decide (key r = k)

/-- Modelled from the spec (§4.3): `record_count` is the partition size. -/
def recordCount {κ : Type} [DecidableEq κ] (key : CanonicalRecord → κ)
    (l : List CanonicalRecord) (k : κ) : Nat :=
  (partitionOf key l k).length

/-- Modelled from the spec (§3, §4.1): the sentinel under which records with
an absent category are counted in `category_counts`. -/
def missingCat : List Char := ['<', 'm', 'i', 's', 's', 'i', 'n', 'g', '>']

/-- The category-count key of one record: its category, or the
missing-category sentinel. -/
def catOf (c : CanonicalRecord) : List Char := c.category.getD missingCat

/-- Modelled from the spec (§3, §4.3): `category_counts` — occurrence count of
each category value within the bucket+group partition. -/
def categoryCounts {κ : Type} [DecidableEq κ] (key : CanonicalRecord → κ)
    (l : List CanonicalRecord) (k : κ) (cat : List Char) : Nat :=
  ((partitionOf key l k).map catOf).count cat

/-- The distinct category values present in a bucket+group partition. -/
def categoriesOf {κ : Type} [DecidableEq κ] (key : CanonicalRecord → κ)
    (l : List CanonicalRecord) (k : κ) : List (List Char) :=
  ((partitionOf key l k).map catOf).dedup

/-- Lexicographic strict order on character lists by code point, as Python
compares strings. -/
def lexLt : List Char → List Char → Bool
  | [], [] => false
  | [], _ :: _ => true
  | _ :: _, [] => false
  | a :: as, b :: bs =>
    if a.toNat < b.toNat then true
    else if b.toNat < a.toNat then false
    else lexLt as bs

/-- Modelled from the spec (§4.4, `ipmap/processing/stats.py` is not in src):
keep the current candidate unless the challenger has a strictly higher count,
or an equal count and a lexicographically smaller string. -/
def better (counts : List Char → Nat) (a b : List Char) : List Char :=
  if counts a < counts b ∨ (counts b = counts a ∧ lexLt b a = true) then b
  else a

/-- Modelled from the spec (§4.4): `primary_category` — the category with the
highest count, ties broken by lexicographic order, smallest first; `none` when
the partition is empty. -/
def selectPrimary (counts : List Char → Nat) :
    List (List Char) → Option (List Char)
  | [] => none
  | c :: cs => some (cs.foldl (better counts) c)

/-- The resolved `primary_category` of one bucket+group row. -/
def primaryOf {κ : Type} [DecidableEq κ] (key : CanonicalRecord → κ)
    (l : List CanonicalRecord) (k : κ) : Option (List Char) :=
  selectPrimary (categoryCounts key l k) (categoriesOf key l k)

/-- From src/ipmap/cli.py lines 311-313: the set of `/16` blocks with data,
`set(zip(buckets_16.bucket_x, buckets_16.bucket_y))`. -/
def blocks16 (l : List CanonicalRecord) : List (Nat × Nat) :=
  ((keysOf key16 l).map fun k => k.1).dedup

/-- From src/ipmap/cli.py lines 322-324 and 371-373: a `/24` partition is kept
only when its parent `/16` coordinates appear in the `/16` view's data. -/
def eligibleParent (l : List CanonicalRecord) (p : Nat × Nat) : Bool :=
  decide (p ∈ blocks16 l)

/-- The parent `/16` coordinates of a `/24` partition key. -/
def parentCoordsOfKey (k : (Nat × Nat × Nat) × GroupKey) : Nat × Nat :=
  (k.1.1, k.1.2.1)

/-- From src/ipmap/cli.py lines 321-325: the `/24` rows retained after
coordination against the `/16` view. -/
def retained24 (l : List CanonicalRecord) :
    List ((Nat × Nat × Nat) × GroupKey) :=
  (keysOf key24 l).filter fun k => eligibleParent l (parentCoordsOfKey k)

/-- Projection of a `/24` partition key onto the `/16` partition key of the
same records: parent coordinates plus the unchanged grouping values. -/
def proj24to16 (k : (Nat × Nat × Nat) × GroupKey) : (Nat × Nat) × GroupKey :=
  ((k.1.1, k.1.2.1), k.2)

/-- Sum of `record_count` over the retained `/24` children of one `/16` row. -/
def childSum (l : List CanonicalRecord) (k16 : (Nat × Nat) × GroupKey) : Nat :=
  (((retained24 l).filter fun k => decide (proj24to16 k = k16)).map fun k =>
    recordCount key24 l k).sum

/-- From src/ipmap/cli.py lines 311-313, over an explicit `/16` row set: the
parent coordinates that have `/16` data. -/
def blocksWithData (keys16 : List ((Nat × Nat) × GroupKey)) :
    List (Nat × Nat) :=
  (keys16.map fun k => k.1).dedup

/-- From src/ipmap/cli.py lines 370-373: the `/24` parent-coordinate groups
kept by the nested loop (the others hit `continue`). -/
def keptParents (blocks : List (Nat × Nat)) (gs : List (Nat × Nat)) :
    List (Nat × Nat) :=
  gs.filter fun p => decide (p ∈ blocks)

/-- From src/ipmap/cli.py lines 369-396: the counter incremented once per
written `/24` frame and echoed to the caller as "Wrote {count} /24 frames". -/
def framesCount (blocks : List (Nat × Nat)) (gs : List (Nat × Nat)) : Nat :=
  (keptParents blocks gs).length

/-- The number of `/24` parent groups discarded because their parent `/16` is
not eligible; `src/ipmap/cli.py` never echoes or returns this value (the skip
branch is a bare `continue`, with a per-item debug log in consolidated mode). -/
def suppressed24 (blocks : List (Nat × Nat)) (gs : List (Nat × Nat)) : Nat :=
  (gs.filter fun p => !decide (p ∈ blocks)).length

/-- The explicit statuses surfaced by the pipeline. -/
inductive PipelineStatus where
  | emptyInput
  deriving DecidableEq

/-- One `/16` aggregate output row. -/
structure Row16 where
  coords : Nat × Nat
  group : GroupKey
  recCount : Nat
  primary : Option (List Char)
  deriving DecidableEq

/-- The `/16` aggregate rows for a canonical record list. -/
def rows16 (l : List CanonicalRecord) : List Row16 :=
  (keysOf key16 l).map fun k =>
    { coords := k.1, group := k.2, recCount := recordCount key16 l k,
      primary := primaryOf key16 l k }

/-- Modelled from the spec (§4.1, §7) together with src/ipmap/cli.py lines
203-205 (empty input aborts with an explicit status before aggregation):
the pipeline returns an explicit empty-result status when normalization
yields zero canonical records (`ipmap/processing/normalize.py`, which reports
the empty-result condition per §4.1, is not in src). -/
def runPipeline (raws : List RawRecord) : Except PipelineStatus (List Row16) :=
  if raws = [] then Except.error PipelineStatus.emptyInput
  else if (normalize raws).1 = [] then Except.error PipelineStatus.emptyInput
  else Except.ok (rows16 (normalize raws).1)

/-- The decomposition test worded by the spec (§4.1): the string splits on `.`
into exactly four parts, each a decimal octet in [0,255]. -/
def decomposesIntoQuad (s : List Char) : Bool :=
  match splitOnChar '.' s with
  | [p1, p2, p3, p4] =>
    (parseOctet p1).isSome && (parseOctet p2).isSome &&
      (parseOctet p3).isSome && (parseOctet p4).isSome
  | _ => false

mutual
/-- A Python/JSON value as handled by `_compress_button_data` in
src/ipmap/viz/export.py.  Numbers are modelled as rationals. -/
inductive JValue where
  | jnull : JValue
  | jbool : Bool → JValue
  | jnum : Rat → JValue
  | jstr : List Char → JValue
  | jarr : JArr → JValue
  | jobj : JObj → JValue
/-- A JSON array (list of values). -/
inductive JArr where
  | nil : JArr
  | cons : JValue → JArr → JArr
/-- A JSON object: insertion-ordered key/value pairs, as a Python dict. -/
inductive JObj where
  | nil : JObj
  | cons : List Char → JValue → JObj → JObj
end

/-- Map a function over the elements of a JSON array. -/
def mapJArr (f : JValue → JValue) : JArr → JArr
  | JArr.nil => JArr.nil
  | JArr.cons v r => JArr.cons (f v) (mapJArr f r)

/-- First value stored under a key in a JSON object, if any. -/
def lookupJ (k : List Char) : JObj → Option JValue
  | JObj.nil => none
  | JObj.cons k' v rest => if k = k' then some v else lookupJ k rest

/-- The three keys whose numeric arrays `_compress_button_data` rounds
(src/ipmap/viz/export.py line 35). -/
def zKeys : List (List Char) :=
  ["z_primary".data, "z_country".data, "z_records".data]

/-- Round half to even, as Python `round` resolves exact halves. -/
def roundHalfEven (q : Rat) : Int :=
  if q - (q.floor : Rat) < 1 / 2 then q.floor
  else if (1 : Rat) / 2 < q - (q.floor : Rat) then q.floor + 1
  else if q.floor % 2 = 0 then q.floor else q.floor + 1

/-- `round(v, 2)` of src/ipmap/viz/export.py line 39, at rational precision
(the Python original operates on binary floats). -/
def round2 (q : Rat) : Rat := (roundHalfEven (q * 100) : Rat) / 100

/-- Rounding of one cell (src/ipmap/viz/export.py line 39): numbers are
rounded to 2 decimal places, any other value is preserved. -/
def roundCell (v : JValue) : JValue :=
  match v with
  | JValue.jnum q => JValue.jnum (round2 q)
  | v => v

/-- Rounding of one row (src/ipmap/viz/export.py lines 38-41).  The Python
code iterates the row unconditionally and would raise on a non-list row; the
model leaves such a value unchanged. -/
def roundRow (row : JValue) : JValue :=
  match row with
  | JValue.jarr cells => JValue.jarr (mapJArr roundCell cells)
  | row => row

/-- From src/ipmap/viz/export.py lines 36-44: a z-key's list value has every
row's numeric cells rounded; a non-list value is kept as is. -/
def compressValue (v : JValue) : JValue :=
  match v with
  | JValue.jarr rows => JValue.jarr (mapJArr roundRow rows)
  | v => v

/-- From src/ipmap/viz/export.py lines 31-46: copy the button-data dict,
rounding the numeric arrays of the three z-keys and keeping every other
entry unchanged. -/
def compressObj : JObj → JObj
  | JObj.nil => JObj.nil
  | JObj.cons k v rest =>
    if decide (k ∈ zKeys) then JObj.cons k (compressValue v) (compressObj rest)
    else JObj.cons k v (compressObj rest)

/-- JSON string escaping for quote and backslash (a simplified model of the
escaping `json.dumps` performs; the claims never serialize other escapes). -/
def escChar (c : Char) : List Char :=
  if c = '"' then ['\\', '"']
  else if c = '\\' then ['\\', '\\']
  else [c]

/-- Escape every character of a string body. -/
def escList (s : List Char) : List Char :=
  s.foldr (fun c acc => escChar c ++ acc) []

/-- A serialized JSON string literal. -/
def jdumpStr (s : List Char) : List Char := '"' :: (escList s ++ ['"'])

/-- Decimal character form of an integer. -/
def intChars (i : Int) : List Char :=
  if i < 0 then '-' :: Nat.toDigits 10 i.natAbs else Nat.toDigits 10 i.natAbs

/-- Serialized number: models Python's integral output; a non-integral
rational is rendered as numerator, `/`, denominator (never reached by the
claims). -/
def jdumpNum (q : Rat) : List Char :=
  if q.den = 1 then intChars q.num
  else intChars q.num ++ '/' :: Nat.toDigits 10 q.den

mutual
/-- `json.dumps(value, separators=(',', ':'))` of src/ipmap/viz/export.py
line 49: compact serialization with no whitespace. -/
def jdump : JValue → List Char
  | JValue.jnull => "null".data
  | JValue.jbool true => "true".data
  | JValue.jbool false => "false".data
  | JValue.jnum q => jdumpNum q
  | JValue.jstr s => jdumpStr s
  | JValue.jarr xs => '[' :: (jdumpArr xs ++ [']'])
  | JValue.jobj fs => '\x7b' :: (jdumpObj fs ++ ['\x7d'])
/-- Comma-separated serialization of array elements. -/
def jdumpArr : JArr → List Char
  | JArr.nil => []
  | JArr.cons v JArr.nil => jdump v
  | JArr.cons v rest => jdump v ++ ',' :: jdumpArr rest
/-- Comma-separated serialization of object entries, `key:value` each. -/
def jdumpObj : JObj → List Char
  | JObj.nil => []
  | JObj.cons k v JObj.nil => jdumpStr k ++ ':' :: jdump v
  | JObj.cons k v rest => jdumpStr k ++ ':' :: jdump v ++ ',' :: jdumpObj rest
end

/-- From src/ipmap/viz/export.py lines 20-49 (`_compress_button_data`):
`None` yields exactly the string `null`; otherwise the compressed dict is
serialized compactly. -/
def compressButtonData (bd : Option JObj) : List Char :=
  match bd with
  | none => "null".data
  | some d => jdump (JValue.jobj (compressObj d))

/-- Concrete button-data fixture: one ordinary key and one z-key. -/
def sampleBtn : JObj :=
  JObj.cons ("country").data (JValue.jstr ("US").data)
    (JObj.cons ("z_primary").data JValue.jnull JObj.nil)

/-- The "at least as good" preorder realized by `better`: a strictly higher
count, or an equal count and a lexicographically smaller-or-equal string. -/
def goodLe (counts : List Char → Nat) (a b : List Char) : Prop :=
  counts b < counts a ∨ (counts a = counts b ∧ lexLt b a = false)

/-- A category-count mapping with two categories tied at 2. -/
def tiedCounts : List Char → Nat :=
  fun c => if c = ("beta").data ∨ c = ("alpha").data then 2 else 0

/-- Concrete raw record fixture: a plain host observation. -/
def rawA : RawRecord :=
  { ip := ("10.1.2.3").data, prefixLen := none,
    org := some (("ORG_A").data), source := ("s").data, snapshotDate := none }

/-- Concrete raw record fixture: same `/24` as `rawA`, same category. -/
def rawB : RawRecord :=
  { ip := ("10.1.2.9").data, prefixLen := none,
    org := some (("ORG_A").data), source := ("s").data, snapshotDate := none }

/-- Concrete raw record fixture: same `/16`, different `/24` and category. -/
def rawC : RawRecord :=
  { ip := ("10.1.9.9").data, prefixLen := none,
    org := some (("ORG_B").data), source := ("s").data, snapshotDate := none }

/-- Concrete raw record fixture: out-of-range first octet. -/
def rawBad : RawRecord :=
  { ip := ("999.1.1.1").data, prefixLen := none,
    org := none, source := ("s").data, snapshotDate := none }

/-- Concrete raw record fixture: valid address with a `/24` suffix. -/
def rawSlash : RawRecord :=
  { ip := ("1.2.3.0/24").data, prefixLen := none,
    org := none, source := ("s").data, snapshotDate := none }

/-- Concrete raw record fixture: a colon after the `/` separator. -/
def rawColon : RawRecord :=
  { ip := ("1.2.3.4/2:4").data, prefixLen := none,
    org := none, source := ("s").data, snapshotDate := none }

/-- Concrete canonical record fixture for `10.1.2.3`, category `ORG_A`. -/
def recA : CanonicalRecord :=
  { address := quadAddr 10 1 2 3, prefixLen := none,
    category := some (("ORG_A").data), source := ("s").data,
    snapshotDate := none }

/-- Concrete canonical record fixture for `10.1.2.9`, category `ORG_A`. -/
def recB : CanonicalRecord :=
  { address := quadAddr 10 1 2 9, prefixLen := none,
    category := some (("ORG_A").data), source := ("s").data,
    snapshotDate := none }

/-- Concrete canonical record fixture for `10.1.9.9`, category `ORG_B`. -/
def recC : CanonicalRecord :=
  { address := quadAddr 10 1 9 9, prefixLen := none,
    category := some (("ORG_B").data), source := ("s").data,
    snapshotDate := none }

theorem oct_quad (a b c d : Nat) (ha : a ≤ 255) (hb : b ≤ 255)
    (hc : c ≤ 255) (hd : d ≤ 255) :
    oct1 (quadAddr a b c d) = a ∧ oct2 (quadAddr a b c d) = b ∧
    oct3 (quadAddr a b c d) = c ∧ oct4 (quadAddr a b c d) = d := by
  unfold oct1 oct2 oct3 oct4 quadAddr
  refine ⟨?_, ?_, ?_, ?_⟩ <;> omega

/-- C1: for every valid dotted-quad IPv4 address `a.b.c.d`, bucketing the
numeric address at `/16` yields `(a, b)`; at `/24` it yields `(a, b, c)` with
parent coordinates `(a, b)`; at `/32` it yields `(a, b, c, d)` — all pure
functions of the numeric address. -/
theorem c1_bucketing_pure (a b c d : Nat) (ha : a ≤ 255) (hb : b ≤ 255)
    (hc : c ≤ 255) (hd : d ≤ 255) :
    bucket16Coords (quadAddr a b c d) = (a, b) ∧
    bucket24Coords (quadAddr a b c d) = (a, b, c) ∧
    bucket24ParentCoords (quadAddr a b c d) = (a, b) ∧
    bucket32Coords (quadAddr a b c d) = (a, b, c, d) := by
  obtain ⟨h1, h2, h3, h4⟩ := oct_quad a b c d ha hb hc hd
  unfold bucket16Coords bucket24Coords bucket24ParentCoords bucket32Coords
  rw [h1, h2, h3, h4]
  exact ⟨rfl, rfl, rfl, rfl⟩

theorem c1_bucketing_pure_witness :
    bucket16Coords (quadAddr 10 1 2 3) = (10, 1) ∧
    bucket24Coords (quadAddr 10 1 2 3) = (10, 1, 2) ∧
    bucket24ParentCoords (quadAddr 10 1 2 3) = (10, 1) ∧
    bucket32Coords (quadAddr 10 1 2 3) = (10, 1, 2, 3) :=
  c1_bucketing_pure 10 1 2 3 (by decide) (by decide) (by decide) (by decide)

theorem recordCount_eq_count {κ : Type} [DecidableEq κ]
    (key : CanonicalRecord → κ) (l : List CanonicalRecord) (k : κ) :
    recordCount key l k = (l.map key).count k := by
  unfold recordCount partitionOf
  rw [List.count, List.countP_map, List.countP_eq_length_filter]
  rfl

theorem sum_recordCount_eq_length {κ : Type} [DecidableEq κ]
    (key : CanonicalRecord → κ) (l : List CanonicalRecord) :
    ((keysOf key l).map fun k => recordCount key l k).sum = l.length := by
  unfold keysOf
  calc ((l.map key).dedup.map fun k => recordCount key l k).sum
      = ((l.map key).dedup.map fun k => (l.map key).count k).sum := by
        simp only [recordCount_eq_count]
    _ = (l.map key).length := List.sum_map_count_dedup_eq_length _
    _ = l.length := List.length_map _ _

theorem normalize_cons_some {r : RawRecord} {c : CanonicalRecord}
    (t : List RawRecord) (h : normalizeRecord r = some c) :
    normalize (r :: t) = (c :: (normalize t).1, (normalize t).2) := by
  rcases hnt : normalize t with ⟨acc, rej⟩
  simp only [normalize, h, hnt]

theorem normalize_cons_none {r : RawRecord} (t : List RawRecord)
    (h : normalizeRecord r = none) :
    normalize (r :: t) = ((normalize t).1, (normalize t).2 + 1) := by
  rcases hnt : normalize t with ⟨acc, rej⟩
  simp only [normalize, h, hnt]

theorem normalize_length (raws : List RawRecord) :
    (normalize raws).1.length + (normalize raws).2 = raws.length := by
  induction raws with
  | nil => rfl
  | cons r t ih =>
    cases h : normalizeRecord r with
    | some c => rw [normalize_cons_some t h]; simp only [List.length_cons]; omega
    | none => rw [normalize_cons_none t h]; simp only [List.length_cons]; omega

/-- C2: for every input record set, the sum of `record_count` over all
bucket+group rows equals the number of accepted canonical records; rejected
rows are excluded (accepted plus rejected recovers the raw input size). -/
theorem c2_record_count_partition {κ : Type} [DecidableEq κ]
    (key : CanonicalRecord → κ) (raws : List RawRecord) :
    (((keysOf key (normalize raws).1).map fun k =>
        recordCount key (normalize raws).1 k).sum
      = (normalize raws).1.length) ∧
    (normalize raws).1.length + (normalize raws).2 = raws.length :=
  ⟨sum_recordCount_eq_length key (normalize raws).1, normalize_length raws⟩

theorem c2_record_count_partition_witness :
    (((keysOf key16 (normalize [rawA, rawBad, rawC]).1).map fun k =>
        recordCount key16 (normalize [rawA, rawBad, rawC]).1 k).sum
      = (normalize [rawA, rawBad, rawC]).1.length) ∧
    (normalize [rawA, rawBad, rawC]).1.length
      + (normalize [rawA, rawBad, rawC]).2 = 3 :=
  c2_record_count_partition key16 [rawA, rawBad, rawC]

/-- C6: the Aggregator never emits a zero-record partition — every key for
which a bucket+group row is returned has `record_count ≥ 1`. -/
theorem c6_record_count_pos {κ : Type} [DecidableEq κ]
    (key : CanonicalRecord → κ) (l : List CanonicalRecord) (k : κ)
    (hk : k ∈ keysOf key l) : 1 ≤ recordCount key l k := by
  rw [recordCount_eq_count]
  exact List.count_pos_iff.mpr (List.mem_dedup.mp hk)

theorem c6_record_count_pos_witness :
    1 ≤ recordCount key16 [recA, recC] (key16 recA) :=
  c6_record_count_pos key16 [recA, recC] (key16 recA) (by decide)

theorem charToNat_inj {a b : Char} (h : a.toNat = b.toNat) : a = b :=
  Char.ext (UInt32.toNat.inj h)

theorem lexLt_irrefl : ∀ (s : List Char), lexLt s s = false
  | [] => rfl
  | c :: cs => by
    unfold lexLt
    simp [lexLt_irrefl cs]

theorem lexLt_asymm : ∀ (a b : List Char),
    lexLt a b = true → lexLt b a = false := by
  intro a
  induction a with
  | nil =>
    intro b h
    cases b with
    | nil => simp [lexLt] at h
    | cons y ys => rfl
  | cons x xs ih =>
    intro b h
    cases b with
    | nil => simp [lexLt] at h
    | cons y ys =>
      unfold lexLt at h ⊢
      by_cases h1 : x.toNat < y.toNat
      · simp [h1, Nat.lt_asymm h1]
      · by_cases h2 : y.toNat < x.toNat
        · simp [h1, h2] at h
        · simp only [h1, h2, if_false] at h
          simp [h1, h2, ih ys h]

theorem lexLt_trans : ∀ (a b c : List Char),
    lexLt a b = true → lexLt b c = true → lexLt a c = true := by
  intro a
  induction a with
  | nil =>
    intro b c hab hbc
    cases c with
    | nil =>
      cases b with
      | nil => simp [lexLt] at hab
      | cons y ys => simp [lexLt] at hbc
    | cons z zs => rfl
  | cons x xs ih =>
    intro b c hab hbc
    cases b with
    | nil => simp [lexLt] at hab
    | cons y ys =>
      cases c with
      | nil => simp [lexLt] at hbc
      | cons z zs =>
        unfold lexLt at hab hbc ⊢
        by_cases h1 : x.toNat < y.toNat <;> by_cases h2 : y.toNat < z.toNat
        · simp [Nat.lt_trans h1 h2]
        · by_cases h3 : z.toNat < y.toNat
          · simp [h2, h3] at hbc
          · have : x.toNat < z.toNat := by omega
            simp [this]
        · by_cases h3 : y.toNat < x.toNat
          · simp [h1, h3] at hab
          · have : x.toNat < z.toNat := by omega
            simp [this]
        · by_cases h3 : y.toNat < x.toNat
          · simp [h1, h3] at hab
          · by_cases h4 : z.toNat < y.toNat
            · simp [h2, h4] at hbc
            · simp only [h1, h3, if_false] at hab
              simp only [h2, h4, if_false] at hbc
              have e1 : ¬ x.toNat < z.toNat := by omega
              have e2 : ¬ z.toNat < x.toNat := by omega
              simp [e1, e2, ih ys zs hab hbc]

theorem lexLt_conn : ∀ (a b : List Char),
    lexLt a b = false → lexLt b a = false → a = b := by
  intro a
  induction a with
  | nil =>
    intro b h1 _
    cases b with
    | nil => rfl
    | cons y ys => simp [lexLt] at h1
  | cons x xs ih =>
    intro b h1 h2
    cases b with
    | nil => simp [lexLt] at h2
    | cons y ys =>
      unfold lexLt at h1 h2
      by_cases g1 : x.toNat < y.toNat
      · simp [g1] at h1
      · by_cases g2 : y.toNat < x.toNat
        · simp [g1, g2] at h2
        · simp only [g1, g2, if_false] at h1 h2
          have hx : x = y := charToNat_inj (by omega)
          rw [hx, ih ys h1 h2]

theorem lexGe_trans {a b c : List Char} (h1 : lexLt a b = false)
    (h2 : lexLt b c = false) : lexLt a c = false := by
  cases hac : lexLt a c with
  | false => rfl
  | true =>
    exfalso
    cases hcb : lexLt c b with
    | true => exact absurd (lexLt_trans a c b hac hcb) (by simp [h1])
    | false => exact absurd (lexLt_conn b c h2 hcb ▸ hac) (by simp [h1])

theorem goodLe_refl (counts : List Char → Nat) (a : List Char) :
    goodLe counts a a := Or.inr ⟨rfl, lexLt_irrefl a⟩

theorem goodLe_trans (counts : List Char → Nat) {a b c : List Char}
    (h1 : goodLe counts a b) (h2 : goodLe counts b c) : goodLe counts a c := by
  rcases h1 with h1 | ⟨e1, l1⟩ <;> rcases h2 with h2 | ⟨e2, l2⟩
  · exact Or.inl (by omega)
  · exact Or.inl (by omega)
  · exact Or.inl (by omega)
  · exact Or.inr ⟨by omega, lexGe_trans l2 l1⟩

theorem goodLe_antisymm (counts : List Char → Nat) {a b : List Char}
    (h1 : goodLe counts a b) (h2 : goodLe counts b a) : a = b := by
  rcases h1 with h1 | ⟨e1, l1⟩ <;> rcases h2 with h2 | ⟨e2, l2⟩
  · omega
  · omega
  · omega
  · exact (lexLt_conn b a l1 l2).symm

theorem better_eq_or (counts : List Char → Nat) (a b : List Char) :
    better counts a b = a ∨ better counts a b = b := by
  unfold better
  split_ifs <;> simp

theorem goodLe_better_left (counts : List Char → Nat) (a b : List Char) :
    goodLe counts (better counts a b) a := by
  unfold better
  split_ifs with h
  · rcases h with h | ⟨e, l⟩
    · exact Or.inl h
    · exact Or.inr ⟨e, lexLt_asymm b a l⟩
  · exact goodLe_refl counts a

theorem goodLe_better_right (counts : List Char → Nat) (a b : List Char) :
    goodLe counts (better counts a b) b := by
  unfold better
  split_ifs with h
  · exact goodLe_refl counts b
  · by_cases hlt : counts b < counts a
    · exact Or.inl hlt
    · have hle : ¬ counts a < counts b := fun hh => h (Or.inl hh)
      have he : counts b = counts a := by omega
      have hl : lexLt b a = false := by
        cases hv : lexLt b a with
        | false => rfl
        | true => exact absurd (Or.inr ⟨he, hv⟩) h
      exact Or.inr ⟨he.symm, hl⟩

theorem foldl_better_mem (counts : List Char → Nat) :
    ∀ (cs : List (List Char)) (c : List Char),
      cs.foldl (better counts) c ∈ c :: cs := by
  intro cs
  induction cs with
  | nil => intro c; simp
  | cons x xs ih =>
    intro c
    have h := ih (better counts c x)
    simp only [List.foldl_cons, List.mem_cons] at h ⊢
    rcases h with h' | h'
    · rcases better_eq_or counts c x with hb | hb
      · exact Or.inl (h'.trans hb)
      · exact Or.inr (Or.inl (h'.trans hb))
    · exact Or.inr (Or.inr h')

theorem foldl_better_goodLe (counts : List Char → Nat) :
    ∀ (cs : List (List Char)) (c : List Char),
      ∀ y ∈ c :: cs, goodLe counts (cs.foldl (better counts) c) y := by
  intro cs
  induction cs with
  | nil =>
    intro c y hy
    rcases List.mem_cons.mp hy with rfl | hy'
    · exact goodLe_refl counts y
    · cases hy'
  | cons x xs ih =>
    intro c y hy
    simp only [List.foldl_cons]
    rcases List.mem_cons.mp hy with h1 | hy'
    · rw [h1]
      exact goodLe_trans counts
        (ih (better counts c x) _ (List.mem_cons_self _ _))
        (goodLe_better_left counts c x)
    · rcases List.mem_cons.mp hy' with h2 | hy''
      · rw [h2]
        exact goodLe_trans counts
          (ih (better counts c x) _ (List.mem_cons_self _ _))
          (goodLe_better_right counts c x)
      · exact ih (better counts c x) y (List.mem_cons.mpr (Or.inr hy''))

/-- C3: whenever two or more categories attain the equal maximum count, the
Primary-Selector returns a category attaining the maximum that is
lexicographically smaller-or-equal to every tied category — the
lexicographically smallest of the tied strings. -/
theorem c3_tie_lex_smallest (counts : List Char → Nat)
    (cats : List (List Char)) (r m : List Char)
    (hr : selectPrimary counts cats = some r) (hm : m ∈ cats)
    (hmax : ∀ x ∈ cats, counts x ≤ counts m)
    (_htie : ∃ a, a ∈ cats ∧ a ≠ m ∧ counts a = counts m) :
    r ∈ cats ∧ counts r = counts m ∧
      ∀ t ∈ cats, counts t = counts m → lexLt t r = false := by
  cases cats with
  | nil => cases hm
  | cons c cs =>
    have hfold : cs.foldl (better counts) c = r := Option.some.inj hr
    subst hfold
    have hmem := foldl_better_mem counts cs c
    have hgm := foldl_better_goodLe counts cs c m hm
    have hrm : counts (cs.foldl (better counts) c) = counts m := by
      rcases hgm with h | ⟨e, _⟩
      · have := hmax _ hmem; omega
      · exact e
    refine ⟨hmem, hrm, ?_⟩
    intro t ht hte
    rcases foldl_better_goodLe counts cs c t ht with h | ⟨_, hl⟩
    · exfalso; omega
    · exact hl

theorem c3_tie_lex_smallest_witness :
    selectPrimary tiedCounts [("beta").data, ("alpha").data]
        = some (("alpha").data) ∧
    (("alpha").data ∈ [("beta").data, ("alpha").data] ∧
      tiedCounts (("alpha").data) = tiedCounts (("beta").data) ∧
      ∀ t ∈ [("beta").data, ("alpha").data],
        tiedCounts t = tiedCounts (("beta").data) →
          lexLt t (("alpha").data) = false) := by
  refine ⟨by decide, ?_⟩
  exact c3_tie_lex_smallest tiedCounts [("beta").data, ("alpha").data]
    (("alpha").data) (("beta").data) (by decide) (by decide) (by decide)
    ⟨("alpha").data, by decide⟩

theorem selectPrimary_perm (counts : List Char → Nat)
    {cs1 cs2 : List (List Char)} (hp : cs1.Perm cs2) :
    selectPrimary counts cs1 = selectPrimary counts cs2 := by
  cases cs1 with
  | nil => rw [hp.symm.eq_nil]
  | cons c cs =>
    cases cs2 with
    | nil => exact absurd hp.eq_nil (by simp)
    | cons d ds =>
      simp only [selectPrimary, Option.some.injEq]
      have m1 := foldl_better_mem counts cs c
      have m2 := foldl_better_mem counts ds d
      exact goodLe_antisymm counts
        (foldl_better_goodLe counts cs c _ (hp.mem_iff.mpr m2))
        (foldl_better_goodLe counts ds d _ (hp.mem_iff.mp m1))

/-- C4: aggregation is order-independent — for permuted inputs, every
bucket+group key has identical `record_count`, `category_counts` and
`primary_category`, and the emitted key sets coincide. -/
theorem c4_order_independence {κ : Type} [DecidableEq κ]
    (key : CanonicalRecord → κ) (l1 l2 : List CanonicalRecord)
    (hp : l1.Perm l2) (k : κ) :
    recordCount key l1 k = recordCount key l2 k ∧
    (∀ c, categoryCounts key l1 k c = categoryCounts key l2 k c) ∧
    primaryOf key l1 k = primaryOf key l2 k ∧
    (keysOf key l1).Perm (keysOf key l2) := by
  have hpart : (partitionOf key l1 k).Perm (partitionOf key l2 k) :=
    hp.filter _
  have hcc : ∀ c, categoryCounts key l1 k c = categoryCounts key l2 k c := by
    intro c
    unfold categoryCounts List.count
    exact (hpart.map catOf).countP_eq _
  refine ⟨hpart.length_eq, hcc, ?_, (hp.map key).dedup⟩
  unfold primaryOf
  rw [funext hcc]
  exact selectPrimary_perm _ ((hpart.map catOf).dedup)

theorem c4_order_independence_witness :
    recordCount key16 [recA, recC] (key16 recA)
        = recordCount key16 [recC, recA] (key16 recA) ∧
    categoryCounts key16 [recA, recC] (key16 recA) (("ORG_A").data)
        = categoryCounts key16 [recC, recA] (key16 recA) (("ORG_A").data) ∧
    primaryOf key16 [recA, recC] (key16 recA)
        = primaryOf key16 [recC, recA] (key16 recA) ∧
    (keysOf key16 [recA, recC]).Perm (keysOf key16 [recC, recA]) := by
  obtain ⟨h1, h2, h3, h4⟩ := c4_order_independence key16 [recA, recC]
    [recC, recA] (List.Perm.swap recC recA []) (key16 recA)
  exact ⟨h1, h2 (("ORG_A").data), h3, h4⟩

theorem sum_refine {κ₁ κ₂ : Type} [DecidableEq κ₁] [DecidableEq κ₂]
    (f : CanonicalRecord → κ₁) (g : κ₁ → κ₂) (l : List CanonicalRecord)
    (k : κ₂) :
    (((keysOf f l).filter fun k1 => decide (g k1 = k)).map fun k1 =>
      recordCount f l k1).sum = recordCount (fun r => g (f r)) l k := by
  unfold keysOf
  calc (((l.map f).dedup.filter fun k1 => decide (g k1 = k)).map fun k1 =>
          recordCount f l k1).sum
      = (((l.map f).dedup.filter fun k1 => decide (g k1 = k)).map fun k1 =>
          (l.map f).count k1).sum := by
        simp only [recordCount_eq_count]
    _ = (l.map f).countP fun k1 => decide (g k1 = k) :=
        List.sum_map_count_dedup_filter_eq_countP _ _
    _ = l.countP fun r => decide (g (f r) = k) := by
        rw [List.countP_map]
        rfl
    _ = recordCount (fun r => g (f r)) l k := by
        rw [List.countP_eq_length_filter]
        rfl

/-- C5: after coordination against the `/16` aggregate of the same record set
and grouping configuration, every retained `/24` row's parent coordinates are
present among the `/16` blocks with data, and for every `/16` row the
`record_count` of its retained `/24` children sums to at most the `/16` row's
own `record_count`. -/
theorem c5_parent_consistency (l : List CanonicalRecord) :
    (∀ k ∈ retained24 l, parentCoordsOfKey k ∈ blocks16 l) ∧
    ∀ k16 ∈ keysOf key16 l, childSum l k16 ≤ recordCount key16 l k16 := by
  constructor
  · intro k hk
    exact of_decide_eq_true (List.mem_filter.mp hk).2
  · intro k16 _
    unfold childSum retained24
    have hsub :
        List.Sublist
          (((keysOf key24 l).filter fun k =>
              eligibleParent l (parentCoordsOfKey k)).filter fun k =>
                decide (proj24to16 k = k16))
          ((keysOf key24 l).filter fun k => decide (proj24to16 k = k16)) :=
      List.Sublist.filter _ (List.filter_sublist _)
    have hle := List.Sublist.sum_le_sum
      (hsub.map fun k => recordCount key24 l k) (fun a _ => Nat.zero_le a)
    calc ((((keysOf key24 l).filter fun k =>
            eligibleParent l (parentCoordsOfKey k)).filter fun k =>
              decide (proj24to16 k = k16)).map fun k =>
                recordCount key24 l k).sum
        ≤ (((keysOf key24 l).filter fun k =>
            decide (proj24to16 k = k16)).map fun k =>
              recordCount key24 l k).sum := hle
      _ = recordCount (fun r => proj24to16 (key24 r)) l k16 :=
          sum_refine key24 proj24to16 l k16
      _ = recordCount key16 l k16 := rfl

theorem c5_parent_consistency_witness :
    parentCoordsOfKey (key24 recA) ∈ blocks16 [recA, recC] ∧
    childSum [recA, recC] (key16 recA)
      ≤ recordCount key16 [recA, recC] (key16 recA) := by
  obtain ⟨h1, h2⟩ := c5_parent_consistency [recA, recC]
  exact ⟨h1 (key24 recA) (by decide), h2 (key16 recA) (by decide)⟩

/-- C7: when normalization yields zero canonical records (input empty or all
rows rejected), the pipeline returns the explicit empty-input status, which
no successful result equals. -/
theorem c7_empty_input_status (raws : List RawRecord)
    (h : (normalize raws).1 = []) :
    runPipeline raws = Except.error PipelineStatus.emptyInput ∧
    ∀ rows, runPipeline raws ≠ Except.ok rows := by
  have hrun : runPipeline raws = Except.error PipelineStatus.emptyInput := by
    unfold runPipeline
    by_cases he : raws = []
    · simp [he]
    · simp [he, h]
  exact ⟨hrun, fun rows hok => by rw [hrun] at hok; cases hok⟩

theorem c7_empty_input_status_witness :
    runPipeline [rawBad] = Except.error PipelineStatus.emptyInput ∧
    runPipeline [rawBad] ≠ Except.ok [] := by
  obtain ⟨h1, h2⟩ := c7_empty_input_status [rawBad] (by decide)
  exact ⟨h1, h2 []⟩

theorem splitOnChar_ne_nil (sep : Char) (s : List Char) :
    splitOnChar sep s ≠ [] := by
  cases s with
  | nil => simp [splitOnChar]
  | cons c cs =>
    unfold splitOnChar
    split_ifs <;> simp

theorem splitOnChar_eq_headD_tail (sep : Char) (s : List Char) :
    splitOnChar sep s
      = (splitOnChar sep s).headD [] :: (splitOnChar sep s).tail := by
  rcases h : splitOnChar sep s with _ | ⟨p, ps⟩
  · exact absurd h (splitOnChar_ne_nil sep s)
  · rfl

theorem mem_splitOnChar {c sep : Char} (hne : c ≠ sep) :
    ∀ (s : List Char), c ∈ s → ∃ p, p ∈ splitOnChar sep s ∧ c ∈ p := by
  intro s
  induction s with
  | nil => intro h; cases h
  | cons x xs ih =>
    intro h
    unfold splitOnChar
    by_cases hx : x = sep
    · rw [if_pos hx]
      rcases List.mem_cons.mp h with h1 | h2
      · exact absurd (h1.trans hx) hne
      · obtain ⟨q, hq, hcq⟩ := ih h2
        exact ⟨q, List.mem_cons.mpr (Or.inr hq), hcq⟩
    · rw [if_neg hx]
      rcases List.mem_cons.mp h with h1 | h2
      · exact ⟨x :: (splitOnChar sep xs).headD [], List.mem_cons_self _ _,
          List.mem_cons.mpr (Or.inl h1)⟩
      · obtain ⟨q, hq, hcq⟩ := ih h2
        rw [splitOnChar_eq_headD_tail sep xs] at hq
        rcases List.mem_cons.mp hq with hq1 | hq2
        · exact ⟨x :: (splitOnChar sep xs).headD [], List.mem_cons_self _ _,
            List.mem_cons.mpr (Or.inr (hq1 ▸ hcq))⟩
        · exact ⟨q, List.mem_cons.mpr (Or.inr hq2), hcq⟩

theorem parseNatDigits_none_of_nondigit {c : Char} {s : List Char}
    (hc : c ∈ s) (hd : c.isDigit = false) : parseNatDigits s = none := by
  unfold parseNatDigits
  rw [if_neg]
  rintro ⟨-, hall⟩
  have := List.all_eq_true.mp hall c hc
  rw [hd] at this
  cases this

theorem parseQuad_none_of_mem {c : Char} (hsep : c ≠ '.')
    (hd : c.isDigit = false) {s : List Char} (hc : c ∈ s) :
    parseQuad s = none := by
  obtain ⟨p, hp, hcp⟩ := mem_splitOnChar hsep s hc
  have hoct : parseOctet p = none := by
    unfold parseOctet
    rw [parseNatDigits_none_of_nondigit hcp hd]
  unfold parseQuad
  rcases hs : splitOnChar '.' s
    with _ | ⟨p1, _ | ⟨p2, _ | ⟨p3, _ | ⟨p4, _ | ⟨p5, ps⟩⟩⟩⟩⟩ <;>
      (rw [hs] at hp; try rfl)
  rcases List.mem_cons.mp hp with rfl | hp'
  · simp [hoct]
  rcases List.mem_cons.mp hp' with rfl | hp''
  · rcases h1 : parseOctet p1 with _ | v1 <;> simp [h1, hoct]
  rcases List.mem_cons.mp hp'' with rfl | hp3
  · rcases h1 : parseOctet p1 with _ | v1 <;>
      rcases h2 : parseOctet p2 with _ | v2 <;> simp [h1, h2, hoct]
  rcases List.mem_cons.mp hp3 with rfl | hp4
  · rcases h1 : parseOctet p1 with _ | v1 <;>
      rcases h2 : parseOctet p2 with _ | v2 <;>
        rcases h3 : parseOctet p3 with _ | v3 <;> simp [h1, h2, h3, hoct]
  · cases hp4

theorem parseQuad_isSome_eq (s : List Char) :
    (parseQuad s).isSome = decomposesIntoQuad s := by
  unfold parseQuad decomposesIntoQuad
  rcases splitOnChar '.' s
    with _ | ⟨p1, _ | ⟨p2, _ | ⟨p3, _ | ⟨p4, _ | ⟨p5, ps⟩⟩⟩⟩⟩ <;> try rfl
  rcases h1 : parseOctet p1 with _ | v1 <;>
    rcases h2 : parseOctet p2 with _ | v2 <;>
      rcases h3 : parseOctet p3 with _ | v3 <;>
        rcases h4 : parseOctet p4 with _ | v4 <;> simp [h1, h2, h3, h4]

theorem parseIpField_none_of_not_quad {s : List Char}
    (h : decomposesIntoQuad (addrPart s) = false) : parseIpField s = none := by
  unfold addrPart at h
  unfold parseIpField
  rcases hs : splitOnChar '/' s with _ | ⟨a, rest⟩
  · exact absurd hs (splitOnChar_ne_nil '/' s)
  · rw [hs] at h
    simp only [List.headD_cons] at h
    have hq : parseQuad a = none := by
      cases hpq' : parseQuad a with
      | none => rfl
      | some v =>
        have hpq := parseQuad_isSome_eq a
        rw [hpq', h] at hpq
        cases hpq
    rcases rest with _ | ⟨p, rest2⟩
    · simp [hq]
    · rcases rest2 with _ | ⟨q, rest3⟩
      · simp [hq]
      · rfl

theorem parseIpField_none_of_colon {s : List Char} (h : ':' ∈ s) :
    parseIpField s = none := by
  obtain ⟨p, hp, hcp⟩ := mem_splitOnChar (by decide : (':' : Char) ≠ '/') s h
  unfold parseIpField
  rcases hs : splitOnChar '/' s with _ | ⟨a, rest⟩
  · exact absurd hs (splitOnChar_ne_nil '/' s)
  · rw [hs] at hp
    rcases rest with _ | ⟨p2, rest2⟩
    · have hpa : p = a := by simpa using hp
      have hq : parseQuad a = none :=
        parseQuad_none_of_mem (by decide) (by decide) (hpa ▸ hcp)
      simp [hq]
    · rcases rest2 with _ | ⟨p3, rest3⟩
      · simp only [List.mem_cons, List.mem_singleton] at hp
        rcases hp with rfl | rfl | hfalse
        · have hq : parseQuad p = none :=
            parseQuad_none_of_mem (by decide) (by decide) hcp
          simp [hq]
        · have hnd : parseNatDigits p = none :=
            parseNatDigits_none_of_nondigit hcp (by decide)
          cases parseQuad a <;> simp [hnd]
        · cases hfalse
      · rfl

/-- C8 counterexample: the raw ip string `1.2.3.0/24` does not itself
decompose into exactly four decimal octets, yet the Normalizer accepts the
record rather than rejecting it. -/
theorem c8_counterexample :
    decomposesIntoQuad (("1.2.3.0/24").data) = false ∧
    (normalizeRecord rawSlash).isSome = true := by decide

/-- C8 (amended): for every raw record whose ip string's address part — the
portion before an optional `/` suffix — does not decompose into exactly four
decimal octets each in [0,255], and for every raw record whose ip contains
`:` anywhere, the Normalizer rejects the record as a counted skip: it yields
no canonical record, leaves the accepted list unchanged, and increments the
reject count. -/
theorem c8_reject_malformed (r : RawRecord)
    (h : decomposesIntoQuad (addrPart r.ip) = false ∨ ':' ∈ r.ip) :
    normalizeRecord r = none ∧
    ∀ rest, (normalize (r :: rest)).1 = (normalize rest).1 ∧
      (normalize (r :: rest)).2 = (normalize rest).2 + 1 := by
  have hrec : normalizeRecord r = none := by
    unfold normalizeRecord
    rcases h with h | h
    · rw [parseIpField_none_of_not_quad h]
    · rw [parseIpField_none_of_colon h]
  refine ⟨hrec, fun rest => ?_⟩
  rw [normalize_cons_none rest hrec]
  exact ⟨rfl, rfl⟩

theorem c8_reject_malformed_witness :
    normalizeRecord rawColon = none ∧
    (normalize [rawColon, rawA]).1 = (normalize [rawA]).1 ∧
    (normalize [rawColon, rawA]).2 = (normalize [rawA]).2 + 1 := by
  obtain ⟨h1, h2⟩ := c8_reject_malformed rawColon (Or.inr (by decide))
  exact ⟨h1, h2 [rawA]⟩

/-- C9 counterexample: with one eligible `/16` block and three `/24` parent
groups, the nested loop reports 1 (the written-frames count) while 2
partitions were discarded — the reported number is not the suppressed count. -/
theorem c9_counterexample :
    framesCount [(1, 1)] [(1, 1), (2, 2), (3, 3)] = 1 ∧
    suppressed24 [(1, 1)] [(1, 1), (2, 2), (3, 3)] = 2 ∧
    framesCount [(1, 1)] [(1, 1), (2, 2), (3, 3)]
      ≠ suppressed24 [(1, 1)] [(1, 1), (2, 2), (3, 3)] := by decide

/-- C9 (amended): the coordinator discards `/24` partitions whose parent
`/16` is not eligible, keeping exactly the eligible ones, and the count it
echoes to the caller is the number of frames written (the retained count);
the suppressed count is never reported and is recoverable only as the total
minus the reported count. -/
theorem c9_written_not_suppressed (blocks gs : List (Nat × Nat)) :
    framesCount blocks gs = (keptParents blocks gs).length ∧
    framesCount blocks gs + suppressed24 blocks gs = gs.length ∧
    ∀ p ∈ keptParents blocks gs, p ∈ blocks := by
  refine ⟨rfl, ?_, ?_⟩
  · unfold framesCount suppressed24 keptParents
    induction gs with
    | nil => rfl
    | cons g t ih =>
      by_cases hg : g ∈ blocks
      · simp [List.filter_cons, hg]
        omega
      · simp [List.filter_cons, hg]
        omega
  · intro p hp
    exact of_decide_eq_true (List.mem_filter.mp hp).2

theorem c9_written_not_suppressed_witness :
    framesCount [(1, 1)] [(1, 1), (2, 2)]
        = (keptParents [(1, 1)] [(1, 1), (2, 2)]).length ∧
    framesCount [(1, 1)] [(1, 1), (2, 2)]
        + suppressed24 [(1, 1)] [(1, 1), (2, 2)] = 2 ∧
    ((1, 1) : Nat × Nat) ∈ [(1, 1)] := by
  obtain ⟨h1, h2, h3⟩ := c9_written_not_suppressed [(1, 1)] [(1, 1), (2, 2)]
  exact ⟨h1, h2, h3 (1, 1) (by decide)⟩

theorem lookupJ_compressObj (k : List Char) (h : ¬ k ∈ zKeys) :
    ∀ (d : JObj), lookupJ k (compressObj d) = lookupJ k d
  | JObj.nil => rfl
  | JObj.cons k' v rest => by
    unfold compressObj
    by_cases hz : k' ∈ zKeys
    · rw [if_pos (decide_eq_true hz)]
      unfold lookupJ
      by_cases hk : k = k'
      · exact absurd (hk ▸ hz) h
      · rw [if_neg hk, if_neg hk]
        exact lookupJ_compressObj k h rest
    · rw [if_neg (by simpa using hz)]
      unfold lookupJ
      by_cases hk : k = k'
      · rw [if_pos hk, if_pos hk]
      · rw [if_neg hk, if_neg hk]
        exact lookupJ_compressObj k h rest

/-- C10: `_compress_button_data` leaves every entry whose key is not one of
`z_primary`, `z_country`, `z_records` unchanged in the compressed object it
serializes, and a `None` input yields exactly the string `null`. -/
theorem c10_compress_preserves (d : JObj) (k : List Char)
    (h : ¬ k ∈ zKeys) :
    lookupJ k (compressObj d) = lookupJ k d ∧
    compressButtonData none = ("null").data :=
  ⟨lookupJ_compressObj k h d, rfl⟩

theorem c10_compress_preserves_witness :
    lookupJ (("country").data) (compressObj sampleBtn)
        = lookupJ (("country").data) sampleBtn ∧
    compressButtonData none = ("null").data :=
  c10_compress_preserves sampleBtn (("country").data) (by decide)

end CiderCli
